import Mathlib

/-!
Verification of the MindMap Pro cache layer (storage/cache_manager.py and
storage/cache_invalidator.py), shallowly embedded in Lean.

Modelling conventions:
* Redis is modelled as an association list from keys to payloads shared by the
  text client and the binary client (both point at the same logical database).
* A payload is either a text payload (the parse tree of the JSON document that
  json.dumps produced — JSON serialisation of such trees is injective, so the
  tree is a faithful stand-in for the wire string) or a binary payload (the
  pickled object; pickle round-trips the modelled values exactly, so the
  payload simply carries the value).
* Backend failures (connection errors, SETEX rejecting a non-positive TTL,
  a raising DELETE or KEYS call) are modelled by an explicit failure oracle
  RedisBehavior; an operation that would raise in Python returns Option.none
  at the Redis layer and the caller's try/except converts that into the
  documented sentinel (false or an absent result).
* Python has a single None value, so get-style accessors return a PyVal and
  PyVal.none plays the role of both an absent result and a stored null,
  exactly as in the source.
* Python iterates sets in an unspecified order; the embedding fixes insertion
  order.  All order-sensitive theorems are stated at the level of membership.
-/

/-- Glob matching as used by the Redis KEYS command, restricted to literal
characters and the star wildcard (the only forms the repository uses).  A star
matches any, possibly empty, sequence of characters, including colons: the
rest of the pattern is tried against every suffix of the string. -/
def globChars : List Char → List Char → Bool
  | [], cs => cs.isEmpty
  | '*' :: ps, cs => cs.tails.any (fun suffix => globChars ps suffix)
  | _ :: _, [] => false
  | p :: ps, c :: cs => p == c && globChars ps cs

/-- Glob matching on strings: globMatch pattern key. -/
def globMatch (pattern key : String) : Bool :=
  globChars pattern.toList key.toList

/-- Keys of a Python dict in the model: the repository only ever uses string
and integer keys. -/
inductive PyKey where
  | int (n : Int)
  | str (s : String)
deriving DecidableEq

/-- Python values that flow through the cache layer: None, booleans, integers,
strings, lists and dicts.  (Floats are outside the model.) -/
inductive PyVal where
  | none
  | bool (b : Bool)
  | int (n : Int)
  | str (s : String)
  | list (xs : List PyVal)
  | dict (kvs : List (PyKey × PyVal))

/-- JSON documents: what json.dumps writes and json.loads reads back.  Object
keys are always strings. -/
inductive JVal where
  | null
  | bool (b : Bool)
  | int (n : Int)
  | str (s : String)
  | arr (xs : List JVal)
  | obj (kvs : List (String × JVal))

/-- Rendering of a dict key by json.dumps: integer keys are coerced to their
decimal string form, string keys pass through. -/
def pyKeyStr : PyKey → String
  | .int n => toString n
  | .str s => s

mutual

/-- Model of json.dumps on the modelled values (all of which are
serialisable, so no TypeError branch is needed): non-string dict keys are
coerced to strings, everything else maps structurally. -/
def pyToJval : PyVal → JVal
  | .none => .null
  | .bool b => .bool b
  | .int n => .int n
  | .str s => .str s
  | .list xs => .arr (pyListToJ xs)
  | .dict kvs => .obj (pyDictToJ kvs)

/-- Elementwise json.dumps on a Python list. -/
def pyListToJ : List PyVal → List JVal
  | [] => []
  | x :: xs => pyToJval x :: pyListToJ xs

/-- Entrywise json.dumps on a Python dict, coercing keys to strings. -/
def pyDictToJ : List (PyKey × PyVal) → List (String × JVal)
  | [] => []
  | (k, v) :: kvs => (pyKeyStr k, pyToJval v) :: pyDictToJ kvs

end

mutual

/-- Model of json.loads: a parsed JSON document becomes a Python value whose
dict keys are all strings. -/
def jvalToPy : JVal → PyVal
  | .null => .none
  | .bool b => .bool b
  | .int n => .int n
  | .str s => .str s
  | .arr xs => .list (jListToPy xs)
  | .obj kvs => .dict (jDictToPy kvs)

/-- Elementwise json.loads on a JSON array. -/
def jListToPy : List JVal → List PyVal
  | [] => []
  | x :: xs => jvalToPy x :: jListToPy xs

/-- Entrywise json.loads on a JSON object. -/
def jDictToPy : List (String × JVal) → List (PyKey × PyVal)
  | [] => []
  | (k, v) :: kvs => (PyKey.str k, jvalToPy v) :: jDictToPy kvs

end

mutual

/-- Values whose JSON text encoding is faithful: every dict key, at every
nesting depth, is already a string (json.dumps silently rewrites any other
key, so round-tripping such a value cannot return it unchanged). -/
def jfaithful : PyVal → Bool
  | .none => true
  | .bool _ => true
  | .int _ => true
  | .str _ => true
  | .list xs => jfaithfulList xs
  | .dict kvs => jfaithfulDict kvs

/-- All elements of a list are JSON-faithful. -/
def jfaithfulList : List PyVal → Bool
  | [] => true
  | x :: xs => jfaithful x && jfaithfulList xs

/-- All keys of a dict are strings and all values are JSON-faithful. -/
def jfaithfulDict : List (PyKey × PyVal) → Bool
  | [] => true
  | (.str _, v) :: kvs => jfaithful v && jfaithfulDict kvs
  | (.int _, _) :: _ => false

end

mutual

/-- Faithful values survive the json.dumps / json.loads round trip. -/
theorem jroundtrip (v : PyVal) (h : jfaithful v = true) :
    jvalToPy (pyToJval v) = v := by
  cases v with
  | none => rfl
  | bool b => rfl
  | int n => rfl
  | str s => rfl
  | list xs =>
      simp only [pyToJval, jvalToPy, PyVal.list.injEq]
      exact jroundtripList xs (by simpa [jfaithful] using h)
  | dict kvs =>
      simp only [pyToJval, jvalToPy, PyVal.dict.injEq]
      exact jroundtripDict kvs (by simpa [jfaithful] using h)

/-- List version of the round-trip lemma. -/
theorem jroundtripList (xs : List PyVal) (h : jfaithfulList xs = true) :
    jListToPy (pyListToJ xs) = xs := by
  cases xs with
  | nil => rfl
  | cons x xs =>
      simp only [jfaithfulList, Bool.and_eq_true] at h
      simp only [pyListToJ, jListToPy, List.cons.injEq]
      exact ⟨jroundtrip x h.1, jroundtripList xs h.2⟩

/-- Dict version of the round-trip lemma. -/
theorem jroundtripDict (kvs : List (PyKey × PyVal)) (h : jfaithfulDict kvs = true) :
    jDictToPy (pyDictToJ kvs) = kvs := by
  cases kvs with
  | nil => rfl
  | cons kv kvs =>
      obtain ⟨k, v⟩ := kv
      cases k with
      | int n => simp [jfaithfulDict] at h
      | str s =>
          simp only [jfaithfulDict, Bool.and_eq_true] at h
          simp only [pyDictToJ, jDictToPy, pyKeyStr, List.cons.injEq, Prod.mk.injEq]
          exact ⟨⟨trivial, jroundtrip v h.1⟩, jroundtripDict kvs h.2⟩

end

/-- Payload stored under a Redis key: either the JSON document written through
the text-decoding client or the pickled object written through the raw
client.  Both clients address the same logical database, hence one store. -/
inductive Payload where
  | text (j : JVal)
  | binary (v : PyVal)

/-- The Redis keyspace: an association list from keys to payloads.  A write
replaces any earlier binding of the same key. -/
abbrev KVStore := List (String × Payload)

/-- Failure oracle describing which backend calls raise in a given run:
connection errors on SETEX / GET / DELETE are per key, a KEYS scan fails as
a whole. -/
structure RedisBehavior where
  setexFails : String → Bool
  getFails : String → Bool
  deleteFails : String → Bool
  keysFails : Bool

/-- Behaviour of a healthy backend: no call raises. -/
def noFail : RedisBehavior :=
  { setexFails := fun _ => false
    getFails := fun _ => false
    deleteFails := fun _ => false
    keysFails := false }

/-- First binding of a key in the store, as the backend GET sees it. -/
def storeLookup : KVStore → String → Option Payload
  | [], _ => Option.none
  | (k, p) :: st, key => if k = key then some p else storeLookup st key

/-- Model of SETEX: fails (raises) on a connection error or when the TTL is
not positive (Redis rejects a non-positive expire time); otherwise binds the
key to the payload, shadowing any previous binding.  The claims under study
never let time advance between operations, so the recorded TTL itself is not
tracked. -/
def redisSetex (beh : RedisBehavior) (st : KVStore) (key : String) (ttl : Int)
    (p : Payload) : Option KVStore :=
  if beh.setexFails key ∨ ttl ≤ 0 then Option.none
  else some ((key, p) :: st.filter (fun kv => kv.1 != key))

/-- Model of GET: the outer Option.none is a raised connection error, the
inner one an absent key. -/
def redisGet (beh : RedisBehavior) (st : KVStore) (key : String) :
    Option (Option Payload) :=
  if beh.getFails key then Option.none else some (storeLookup st key)

/-- Model of a single-key DELETE: Option.none is a raised connection error. -/
def redisDeleteOne (beh : RedisBehavior) (st : KVStore) (key : String) :
    Option KVStore :=
  if beh.deleteFails key then Option.none
  else some (st.filter (fun kv => kv.1 != key))

/-- Model of KEYS pattern: the keys currently in the store that the glob
pattern matches; Option.none is a raised connection error. -/
def redisKeys (beh : RedisBehavior) (st : KVStore) (pattern : String) :
    Option (List String) :=
  if beh.keysFails then Option.none
  else some ((st.map Prod.fst).filter (fun k => globMatch pattern k))

/-- Model of a multi-key DELETE issued as one command: it either removes all
the named keys or raises without removing anything. -/
def redisDeleteMany (beh : RedisBehavior) (st : KVStore) (ks : List String) :
    Option KVStore :=
  if ks.any beh.deleteFails then Option.none
  else some (st.filter (fun kv => !(ks.contains kv.1)))

/-- CacheManager._get_key: the namespaced key scheme. -/
def getKey (pre ident : String) : String :=
  "mindmap_pro:" ++ pre ++ ":" ++ ident

/-- CacheManager.set_user_data: JSON-serialise and SETEX under the user key;
any raised error is caught and reported as false with the store untouched. -/
def setUserData (beh : RedisBehavior) (st : KVStore) (userId : Int)
    (data : PyVal) (expireTime : Int) : Bool × KVStore :=
  match redisSetex beh st (getKey "user" (toString userId)) expireTime
      (.text (pyToJval data)) with
  | some st' => (true, st')
  | Option.none => (false, st)

/-- CacheManager.get_user_data: GET under the user key and json.loads the
payload; a raised error or an absent key yields None (PyVal.none), and a
payload that is not JSON text (pickled bytes) makes deserialisation raise,
which is caught and also yields None. -/
def getUserData (beh : RedisBehavior) (st : KVStore) (userId : Int) : PyVal :=
  match redisGet beh st (getKey "user" (toString userId)) with
  | Option.none => .none
  | some Option.none => .none
  | some (some (.text j)) => jvalToPy j
  | some (some (.binary _)) => .none

/-- CacheManager.cache_knowledge_map: pickle and SETEX through the binary
client. -/
def cacheKnowledgeMap (beh : RedisBehavior) (st : KVStore) (mapId : Int)
    (graphData : PyVal) (expireTime : Int) : Bool × KVStore :=
  match redisSetex beh st (getKey "knowledge_map" (toString mapId)) expireTime
      (.binary graphData) with
  | some st' => (true, st')
  | Option.none => (false, st)

/-- CacheManager.get_cached_knowledge_map: GET through the binary client and
unpickle; errors and absence yield None, and a JSON text payload makes
pickle.loads raise, which is caught and yields None. -/
def getCachedKnowledgeMap (beh : RedisBehavior) (st : KVStore) (mapId : Int) :
    PyVal :=
  match redisGet beh st (getKey "knowledge_map" (toString mapId)) with
  | Option.none => .none
  | some Option.none => .none
  | some (some (.binary v)) => v
  | some (some (.text _)) => .none

/-- CacheManager.cache_analysis_results: the category embeds the analysis
type as analysis:{type}. -/
def cacheAnalysisResults (beh : RedisBehavior) (st : KVStore) (userId : Int)
    (analysisType : String) (results : PyVal) (expireTime : Int) :
    Bool × KVStore :=
  match redisSetex beh st (getKey ("analysis:" ++ analysisType) (toString userId))
      expireTime (.text (pyToJval results)) with
  | some st' => (true, st')
  | Option.none => (false, st)

/-- CacheManager.get_cached_analysis. -/
def getCachedAnalysis (beh : RedisBehavior) (st : KVStore) (userId : Int)
    (analysisType : String) : PyVal :=
  match redisGet beh st (getKey ("analysis:" ++ analysisType) (toString userId)) with
  | Option.none => .none
  | some Option.none => .none
  | some (some (.text j)) => jvalToPy j
  | some (some (.binary _)) => .none

/-- CacheManager.cache_study_statistics. -/
def cacheStudyStatistics (beh : RedisBehavior) (st : KVStore) (userId : Int)
    (stats : PyVal) (expireTime : Int) : Bool × KVStore :=
  match redisSetex beh st (getKey "study_stats" (toString userId)) expireTime
      (.text (pyToJval stats)) with
  | some st' => (true, st')
  | Option.none => (false, st)

/-- CacheManager.get_cached_study_statistics. -/
def getCachedStudyStatistics (beh : RedisBehavior) (st : KVStore)
    (userId : Int) : PyVal :=
  match redisGet beh st (getKey "study_stats" (toString userId)) with
  | Option.none => .none
  | some Option.none => .none
  | some (some (.text j)) => jvalToPy j
  | some (some (.binary _)) => .none

/-- Shared shape of the pattern-scan-then-batch-delete logic: KEYS pattern,
and if any key matched, one multi-key DELETE; any raised error is caught and
reported as false with the store as it was. -/
def patternDeleteCore (beh : RedisBehavior) (st : KVStore) (pattern : String) :
    Bool × KVStore :=
  match redisKeys beh st pattern with
  | Option.none => (false, st)
  | some ks =>
      if ks.isEmpty then (true, st)
      else
        match redisDeleteMany beh st ks with
        | Option.none => (false, st)
        | some st' => (true, st')

/-- CacheManager.invalidate_user_cache: pattern delete with the pattern
built by _get_key("*", user_id), that is mindmap_pro:*:{user_id} with no
trailing wildcard. -/
def invalidateUserCache (beh : RedisBehavior) (st : KVStore) (userId : Int) :
    Bool × KVStore :=
  patternDeleteCore beh st (getKey "*" (toString userId))

/-- The invalidator's dependency graph: a dict from a key to the set of its
directly dependent keys, modelled as an association list whose value lists
carry set meaning (registration never inserts a duplicate). -/
abbrev DepGraph := List (String × List String)

/-- Dict lookup in the dependency graph (first binding wins, as in a dict). -/
def graphLookup : DepGraph → String → Option (List String)
  | [], _ => Option.none
  | (k, v) :: g, key => if k = key then some v else graphLookup g key

/-- Direct dependents of a key: graph[key] when the key is registered, the
empty set otherwise (the source guards with "if key in self.dependency_graph"). -/
def lookupDeps (g : DepGraph) (key : String) : List String :=
  match graphLookup g key with
  | some ds => ds
  | Option.none => []

/-- Set-style update of a dependent set: add each new element once, keep the
existing elements (Python set.update). -/
def insertNew (s : List String) (ds : List String) : List String :=
  ds.foldl (fun acc d => if d ∈ acc then acc else acc ++ [d]) s

/-- Replace the (first) binding of a key in the graph with a new value. -/
def updateEntry : DepGraph → String → List String → DepGraph
  | [], _, _ => []
  | (k, v) :: g, key, val =>
      if k = key then (key, val) :: g else (k, v) :: updateEntry g key val

/-- CacheInvalidator.register_dependency: create the entry if the key is
missing, then union in the dependent keys. -/
def registerDependency (g : DepGraph) (key : String) (deps : List String) :
    DepGraph :=
  match graphLookup g key with
  | some cur => updateEntry g key (insertNew cur deps)
  | Option.none => g ++ [(key, insertNew [] deps)]

/-- All keys that occur as a dependent anywhere in the graph: the universe
inside which the traversal's visited set can grow. -/
def graphVals (g : DepGraph) : List String :=
  (g.map Prod.snd).flatten

/-- Number of graph-dependent occurrences not yet visited: the quantity that
shrinks whenever the traversal enters a fresh node. -/
def freshCount (g : DepGraph) (visited : List String) : Nat :=
  ((graphVals g).filter (fun x => decide (x ∉ visited))).length

/-- One run of the for loop inside _get_dependent_keys: the first list is
the remaining loop iterations, the second the shared visited set, and rec is
the recursive call used when a fresh dependent is entered.  The result pairs
the collected dependent keys with the final visited set. -/
def getDepLoop (g : DepGraph)
    (rec : List String → List String → List String × List String) :
    List String → List String → List String × List String
  | [], visited => ([], visited)
  | d :: ds, visited =>
      if d ∈ visited then getDepLoop g rec ds visited
      else
        let r1 := rec (lookupDeps g d) (d :: visited)
        let r2 := getDepLoop g rec ds r1.2
        (d :: (r1.1 ++ r2.1), r2.2)

/-- CacheInvalidator._get_dependent_keys with the loop over graph[key] made
explicit through getDepLoop.  The fuel argument bounds how many times the
traversal may enter a fresh node; it is a proof artefact only — every fresh
entry adds a node of graphVals to visited, so the fuel chosen at the top
level (below) can never run out, which is the formal counterpart of the
Python recursion terminating. -/
def getDepAux (g : DepGraph) : Nat → List String → List String →
    List String × List String
  | 0, _, visited => ([], visited)
  | fuel + 1, pending, visited =>
      getDepLoop g (getDepAux g fuel) pending visited

/-- CacheInvalidator._get_dependent_keys(key) as called with a fresh empty
visited set. -/
def getDependentKeysList (g : DepGraph) (key : String) : List String :=
  (getDepAux g ((graphVals g).length + 1) (lookupDeps g key) []).1

/-- The set that invalidate_with_dependencies deletes: the collected
dependents plus the key itself (set add). -/
def invalidationKeys (g : DepGraph) (key : String) : List String :=
  let dks := getDependentKeysList g key
  if key ∈ dks then dks else dks ++ [key]

/-- The delete loop of invalidate_with_dependencies: one single-key DELETE
per key; the first raised error aborts the loop (the try/except wraps the
whole loop) and is reported as false, leaving the remaining keys
unattempted. -/
def deleteLoop (beh : RedisBehavior) : List String → KVStore → Bool × KVStore
  | [], st => (true, st)
  | k :: ks, st =>
      match redisDeleteOne beh st k with
      | Option.none => (false, st)
      | some st' => deleteLoop beh ks st'

/-- In-memory state of a CacheInvalidator together with its backend. -/
structure InvState where
  graph : DepGraph
  store : KVStore

/-- CacheInvalidator.invalidate_with_dependencies. -/
def invalidateWithDependencies (beh : RedisBehavior) (s : InvState)
    (key : String) : Bool × InvState :=
  let r := deleteLoop beh (invalidationKeys s.graph key) s.store
  (r.1, { graph := s.graph, store := r.2 })

/-- CacheInvalidator.invalidate_pattern. -/
def invalidatePattern (beh : RedisBehavior) (s : InvState) (pattern : String) :
    Bool × InvState :=
  let r := patternDeleteCore beh s.store pattern
  (r.1, { graph := s.graph, store := r.2 })

/-- CacheInvalidator.invalidate_user_data: pattern
mindmap_pro:*:{user_id}* with a trailing wildcard. -/
def invalidateUserData (beh : RedisBehavior) (s : InvState) (userId : Int) :
    Bool × InvState :=
  invalidatePattern beh s ("mindmap_pro:*:" ++ toString userId ++ "*")

/-- CacheInvalidator.invalidate_knowledge_map. -/
def invalidateKnowledgeMap (beh : RedisBehavior) (s : InvState) (mapId : Int) :
    Bool × InvState :=
  invalidateWithDependencies beh s ("mindmap_pro:knowledge_map:" ++ toString mapId)

/-- CacheInvalidator.invalidate_analysis_cache: an explicit analysis type
selects that category, otherwise a wildcard covers all analysis types. -/
def invalidateAnalysisCache (beh : RedisBehavior) (s : InvState) (userId : Int)
    (analysisType : Option String) : Bool × InvState :=
  match analysisType with
  | some t =>
      invalidatePattern beh s ("mindmap_pro:analysis:" ++ t ++ ":" ++ toString userId)
  | Option.none =>
      invalidatePattern beh s ("mindmap_pro:analysis:*:" ++ toString userId)

/-- Reachability along registered dependency edges in one or more steps: the
specification-level description of the set that cascading invalidation must
cover. -/
inductive Reach (g : DepGraph) : String → String → Prop
  | single {a b : String} : b ∈ lookupDeps g a → Reach g a b
  | tail {a b c : String} : Reach g a b → c ∈ lookupDeps g b → Reach g a c

/-- Every direct dependent of any key lies in graphVals. -/
theorem memLookupDepsVals (g : DepGraph) (d x : String)
    (h : x ∈ lookupDeps g d) : x ∈ graphVals g := by
  induction g with
  | nil => simp [lookupDeps, graphLookup] at h
  | cons kv g ih =>
      obtain ⟨k, v⟩ := kv
      simp only [graphVals, List.map_cons, List.flatten_cons]
      by_cases hk : k = d
      · subst hk
        simp only [lookupDeps, graphLookup, if_pos rfl] at h
        exact List.mem_append_left _ h
      · simp only [lookupDeps, graphLookup, if_neg hk] at h
        exact List.mem_append_right _ (ih h)

/-- Growing the visited set cannot increase the number of unvisited
occurrences. -/
theorem filterNotMemLenMono (l vis vis' : List String)
    (h : ∀ x, x ∈ vis → x ∈ vis') :
    (l.filter (fun x => decide (x ∉ vis'))).length ≤
      (l.filter (fun x => decide (x ∉ vis))).length := by
  induction l with
  | nil => simp
  | cons a l ih =>
      by_cases ha : a ∈ vis
      · have ha' : a ∈ vis' := h a ha
        simpa [List.filter_cons, ha, ha'] using ih
      · by_cases ha' : a ∈ vis'
        · simp only [List.filter_cons, ha, ha']
          simp only [not_true, not_false_iff, decide_True, decide_False,
            if_true, if_false, List.length_cons]
          exact Nat.le_succ_of_le ih
        · simp only [List.filter_cons, ha, ha']
          simp only [not_false_iff, decide_True, if_true, List.length_cons]
          exact Nat.succ_le_succ ih

/-- Visiting a fresh occurrence strictly shrinks the number of unvisited
occurrences. -/
theorem filterNotMemLenLt (l vis : List String) (d : String)
    (hd : d ∈ l) (hnv : d ∉ vis) :
    (l.filter (fun x => decide (x ∉ d :: vis))).length <
      (l.filter (fun x => decide (x ∉ vis))).length := by
  induction l with
  | nil => simp at hd
  | cons a l ih =>
      by_cases had : a = d
      · subst had
        have h1 : a ∈ a :: vis := List.mem_cons_self a vis
        simp only [List.filter_cons, h1, hnv, not_true, not_false_iff,
          decide_True, decide_False, if_true, if_false, List.length_cons,
          Bool.false_eq_true]
        have hm := filterNotMemLenMono l vis (a :: vis)
          (fun x hx => List.mem_cons_of_mem a hx)
        omega
      · have hd' : d ∈ l := by
          rcases List.mem_cons.mp hd with h | h
          · exact absurd h.symm had
          · exact h
        by_cases ha : a ∈ vis
        · have ha2 : a ∈ d :: vis := List.mem_cons_of_mem d ha
          simpa [List.filter_cons, ha, ha2] using ih hd'
        · have ha2 : a ∉ d :: vis := by
            intro hc
            rcases List.mem_cons.mp hc with h | h
            · exact had h
            · exact ha h
          simp only [List.filter_cons, ha, ha2, not_false_iff, decide_True,
            if_true, List.length_cons]
          exact Nat.succ_lt_succ (ih hd')

/-- Unfolding: zero fuel. -/
theorem getDepAux_zero (g : DepGraph) (pending visited : List String) :
    getDepAux g 0 pending visited = ([], visited) := by
  simp [getDepAux]

/-- Unfolding: exhausted loop. -/
theorem getDepAux_nil (g : DepGraph) (fuel : Nat) (visited : List String) :
    getDepAux g (fuel + 1) [] visited = ([], visited) := rfl

/-- Unfolding: the current dependent was already visited, so the loop skips
it. -/
theorem getDepAux_cons_mem (g : DepGraph) (fuel : Nat) (d : String)
    (ds visited : List String) (hd : d ∈ visited) :
    getDepAux g (fuel + 1) (d :: ds) visited =
      getDepAux g (fuel + 1) ds visited := by
  show getDepLoop g (getDepAux g fuel) (d :: ds) visited =
    getDepLoop g (getDepAux g fuel) ds visited
  rw [getDepLoop, if_pos hd]

/-- Unfolding of the visited component when the current dependent is fresh:
first the recursive exploration of d, then the rest of the loop on the grown
visited set. -/
theorem getDepAux_cons_new_snd (g : DepGraph) (fuel : Nat) (d : String)
    (ds visited : List String) (hd : d ∉ visited) :
    (getDepAux g (fuel + 1) (d :: ds) visited).2 =
      (getDepAux g (fuel + 1) ds
        (getDepAux g fuel (lookupDeps g d) (d :: visited)).2).2 := by
  show (getDepLoop g (getDepAux g fuel) (d :: ds) visited).2 = _
  rw [getDepLoop, if_neg hd]
  rfl

/-- Unfolding of the collected component when the current dependent is
fresh. -/
theorem getDepAux_cons_new_fst (g : DepGraph) (fuel : Nat) (d : String)
    (ds visited : List String) (hd : d ∉ visited) :
    (getDepAux g (fuel + 1) (d :: ds) visited).1 =
      d :: ((getDepAux g fuel (lookupDeps g d) (d :: visited)).1 ++
        (getDepAux g (fuel + 1) ds
          (getDepAux g fuel (lookupDeps g d) (d :: visited)).2).1) := by
  show (getDepLoop g (getDepAux g fuel) (d :: ds) visited).1 = _
  rw [getDepLoop, if_neg hd]
  rfl

/-- The visited set only grows during traversal. -/
theorem getDepAuxMono (g : DepGraph) (fuel : Nat) :
    ∀ (pending visited : List String) (x : String), x ∈ visited →
      x ∈ (getDepAux g fuel pending visited).2 := by
  induction fuel with
  | zero =>
      intro pending visited x hx
      rw [getDepAux_zero]
      exact hx
  | succ fuel ihf =>
      intro pending
      induction pending with
      | nil =>
          intro visited x hx
          rw [getDepAux_nil]
          exact hx
      | cons d ds ihp =>
          intro visited x hx
          by_cases hd : d ∈ visited
          · rw [getDepAux_cons_mem g fuel d ds visited hd]
            exact ihp visited x hx
          · rw [getDepAux_cons_new_snd g fuel d ds visited hd]
            exact ihp _ x (ihf _ _ x (List.mem_cons_of_mem d hx))

/-- A key is in the final visited set exactly when it was collected or was
already visited. -/
theorem getDepAuxSndIff (g : DepGraph) (fuel : Nat) :
    ∀ (pending visited : List String) (x : String),
      x ∈ (getDepAux g fuel pending visited).2 ↔
        x ∈ (getDepAux g fuel pending visited).1 ∨ x ∈ visited := by
  induction fuel with
  | zero =>
      intro pending visited x
      rw [getDepAux_zero]
      simp
  | succ fuel ihf =>
      intro pending
      induction pending with
      | nil =>
          intro visited x
          rw [getDepAux_nil]
          simp
      | cons d ds ihp =>
          intro visited x
          by_cases hd : d ∈ visited
          · rw [getDepAux_cons_mem g fuel d ds visited hd]
            exact ihp visited x
          · rw [getDepAux_cons_new_snd g fuel d ds visited hd,
              getDepAux_cons_new_fst g fuel d ds visited hd]
            have h1 := ihf (lookupDeps g d) (d :: visited) x
            have h2 := ihp (getDepAux g fuel (lookupDeps g d) (d :: visited)).2 x
            simp only [List.mem_cons, List.mem_append] at h1 h2 ⊢
            rw [h2, h1]
            tauto

/-- Collected keys were not previously visited. -/
theorem getDepAuxFstNotVis (g : DepGraph) (fuel : Nat) :
    ∀ (pending visited : List String) (x : String),
      x ∈ (getDepAux g fuel pending visited).1 → x ∉ visited := by
  induction fuel with
  | zero =>
      intro pending visited x hx
      rw [getDepAux_zero] at hx
      simp at hx
  | succ fuel ihf =>
      intro pending
      induction pending with
      | nil =>
          intro visited x hx
          rw [getDepAux_nil] at hx
          simp at hx
      | cons d ds ihp =>
          intro visited x hx
          by_cases hd : d ∈ visited
          · rw [getDepAux_cons_mem g fuel d ds visited hd] at hx
            exact ihp visited x hx
          · rw [getDepAux_cons_new_fst g fuel d ds visited hd] at hx
            rcases List.mem_cons.mp hx with rfl | hx'
            · exact hd
            · rcases List.mem_append.mp hx' with h | h
              · intro hc
                exact ihf _ _ x h (List.mem_cons_of_mem d hc)
              · intro hc
                exact ihp _ x h (getDepAuxMono g fuel _ _ x
                  (List.mem_cons_of_mem d hc))

/-- Prepending an edge to a reachability path. -/
theorem Reach.head {g : DepGraph} {a b c : String}
    (hab : b ∈ lookupDeps g a) (hbc : Reach g b c) : Reach g a c := by
  induction hbc with
  | single h => exact Reach.tail (Reach.single hab) h
  | tail _ h ih => exact Reach.tail ih h

/-- Soundness of the traversal: everything it visits was already visited or
is reachable from (or equal to) one of the pending dependents. -/
theorem getDepAuxSound (g : DepGraph) (fuel : Nat) :
    ∀ (pending visited : List String) (x : String),
      x ∈ (getDepAux g fuel pending visited).2 →
        x ∈ visited ∨ ∃ d, d ∈ pending ∧ (x = d ∨ Reach g d x) := by
  induction fuel with
  | zero =>
      intro pending visited x hx
      rw [getDepAux_zero] at hx
      exact Or.inl hx
  | succ fuel ihf =>
      intro pending
      induction pending with
      | nil =>
          intro visited x hx
          rw [getDepAux_nil] at hx
          exact Or.inl hx
      | cons d ds ihp =>
          intro visited x hx
          by_cases hd : d ∈ visited
          · rw [getDepAux_cons_mem g fuel d ds visited hd] at hx
            rcases ihp visited x hx with h | ⟨e, he, hc⟩
            · exact Or.inl h
            · exact Or.inr ⟨e, List.mem_cons_of_mem d he, hc⟩
          · rw [getDepAux_cons_new_snd g fuel d ds visited hd] at hx
            rcases ihp _ x hx with h | ⟨e, he, hc⟩
            · rcases ihf _ _ x h with h' | ⟨c, hc', hcase⟩
              · rcases List.mem_cons.mp h' with rfl | h''
                · exact Or.inr ⟨x, List.mem_cons_self x ds, Or.inl rfl⟩
                · exact Or.inl h''
              · rcases hcase with rfl | hrc
                · exact Or.inr ⟨d, List.mem_cons_self d ds,
                    Or.inr (Reach.single hc')⟩
                · exact Or.inr ⟨d, List.mem_cons_self d ds,
                    Or.inr (Reach.head hc' hrc)⟩
            · exact Or.inr ⟨e, List.mem_cons_of_mem d he, hc⟩

/-- Completeness, part one: with enough fuel, every pending dependent ends up
visited. -/
theorem getDepAuxAbsorb (g : DepGraph) (fuel : Nat) :
    ∀ (pending visited : List String),
      (∀ d, d ∈ pending → d ∈ graphVals g) →
      freshCount g visited < fuel →
      ∀ d, d ∈ pending → d ∈ (getDepAux g fuel pending visited).2 := by
  induction fuel with
  | zero =>
      intro pending visited _ hf
      exact absurd hf (Nat.not_lt_zero _)
  | succ fuel ihf =>
      intro pending
      induction pending with
      | nil =>
          intro visited _ _ e he
          simp at he
      | cons d ds ihp =>
          intro visited hp hf e he
          by_cases hd : d ∈ visited
          · rw [getDepAux_cons_mem g fuel d ds visited hd]
            rcases List.mem_cons.mp he with rfl | he'
            · exact getDepAuxMono g (fuel + 1) ds visited e hd
            · exact ihp visited (fun a ha => hp a (List.mem_cons_of_mem d ha))
                hf e he'
          · rw [getDepAux_cons_new_snd g fuel d ds visited hd]
            have hdV : d ∈ graphVals g := hp d (List.mem_cons_self d ds)
            have hstep : freshCount g (d :: visited) < freshCount g visited :=
              filterNotMemLenLt (graphVals g) visited d hdV hd
            have hsub : ∀ x, x ∈ d :: visited →
                x ∈ (getDepAux g fuel (lookupDeps g d) (d :: visited)).2 :=
              fun x hx => getDepAuxMono g fuel _ _ x hx
            have hf2 : freshCount g
                (getDepAux g fuel (lookupDeps g d) (d :: visited)).2 < fuel + 1 := by
              have hm := filterNotMemLenMono (graphVals g) (d :: visited)
                (getDepAux g fuel (lookupDeps g d) (d :: visited)).2 hsub
              unfold freshCount at hstep hf hm ⊢
              omega
            rcases List.mem_cons.mp he with rfl | he'
            · exact getDepAuxMono g (fuel + 1) ds _ e
                (hsub e (List.mem_cons_self e visited))
            · exact ihp _ (fun a ha => hp a (List.mem_cons_of_mem d ha)) hf2 e he'

/-- Completeness, part two: with enough fuel, every node the traversal
freshly visits also has all its direct dependents visited. -/
theorem getDepAuxExpand (g : DepGraph) (fuel : Nat) :
    ∀ (pending visited : List String),
      (∀ d, d ∈ pending → d ∈ graphVals g) →
      freshCount g visited < fuel →
      ∀ v, v ∈ (getDepAux g fuel pending visited).2 → v ∉ visited →
      ∀ c, c ∈ lookupDeps g v → c ∈ (getDepAux g fuel pending visited).2 := by
  induction fuel with
  | zero =>
      intro pending visited _ hf
      exact absurd hf (Nat.not_lt_zero _)
  | succ fuel ihf =>
      intro pending
      induction pending with
      | nil =>
          intro visited _ _ v hv hnv
          rw [getDepAux_nil] at hv
          exact absurd hv hnv
      | cons d ds ihp =>
          intro visited hp hf v hv hnv c hc
          by_cases hd : d ∈ visited
          · rw [getDepAux_cons_mem g fuel d ds visited hd] at hv ⊢
            exact ihp visited (fun a ha => hp a (List.mem_cons_of_mem d ha))
              hf v hv hnv c hc
          · rw [getDepAux_cons_new_snd g fuel d ds visited hd] at hv ⊢
            have hdV : d ∈ graphVals g := hp d (List.mem_cons_self d ds)
            have hstep : freshCount g (d :: visited) < freshCount g visited :=
              filterNotMemLenLt (graphVals g) visited d hdV hd
            have hsub : ∀ x, x ∈ d :: visited →
                x ∈ (getDepAux g fuel (lookupDeps g d) (d :: visited)).2 :=
              fun x hx => getDepAuxMono g fuel _ _ x hx
            have hf1 : freshCount g (d :: visited) < fuel := by omega
            have hf2 : freshCount g
                (getDepAux g fuel (lookupDeps g d) (d :: visited)).2 < fuel + 1 := by
              have hm := filterNotMemLenMono (graphVals g) (d :: visited)
                (getDepAux g fuel (lookupDeps g d) (d :: visited)).2 hsub
              unfold freshCount at hstep hf hm ⊢
              omega
            have hp1 : ∀ a, a ∈ lookupDeps g d → a ∈ graphVals g :=
              fun a ha => memLookupDepsVals g d a ha
            by_cases hvr1 : v ∈ (getDepAux g fuel (lookupDeps g d) (d :: visited)).2
            · by_cases hvd : v = d
              · subst hvd
                have hcr1 : c ∈ (getDepAux g fuel (lookupDeps g v) (v :: visited)).2 :=
                  getDepAuxAbsorb g fuel (lookupDeps g v) (v :: visited) hp1 hf1 c hc
                exact getDepAuxMono g (fuel + 1) ds _ c hcr1
              · have hvnv1 : v ∉ d :: visited := by
                  intro hvc
                  rcases List.mem_cons.mp hvc with h | h
                  · exact hvd h
                  · exact hnv h
                have hcr1 : c ∈ (getDepAux g fuel (lookupDeps g d) (d :: visited)).2 :=
                  ihf (lookupDeps g d) (d :: visited) hp1 hf1 v hvr1 hvnv1 c hc
                exact getDepAuxMono g (fuel + 1) ds _ c hcr1
            · exact ihp _ (fun a ha => hp a (List.mem_cons_of_mem d ha)) hf2
                v hv hvr1 c hc

/-- The collected list never repeats a key: each key is visited at most once
per invalidation call. -/
theorem getDepAuxNodupFst (g : DepGraph) (fuel : Nat) :
    ∀ (pending visited : List String),
      ((getDepAux g fuel pending visited).1).Nodup := by
  induction fuel with
  | zero =>
      intro pending visited
      rw [getDepAux_zero]
      exact List.nodup_nil
  | succ fuel ihf =>
      intro pending
      induction pending with
      | nil =>
          intro visited
          rw [getDepAux_nil]
          exact List.nodup_nil
      | cons d ds ihp =>
          intro visited
          by_cases hd : d ∈ visited
          · rw [getDepAux_cons_mem g fuel d ds visited hd]
            exact ihp visited
          · rw [getDepAux_cons_new_fst g fuel d ds visited hd]
            rw [List.nodup_cons]
            constructor
            · intro hdc
              rcases List.mem_append.mp hdc with h | h
              · exact getDepAuxFstNotVis g fuel _ _ d h
                  (List.mem_cons_self d visited)
              · exact getDepAuxFstNotVis g (fuel + 1) _ _ d h
                  (getDepAuxMono g fuel _ _ d (List.mem_cons_self d visited))
            · refine List.Nodup.append (ihf _ _) (ihp _) ?_
              intro x hx1 hx2
              have hxr1 : x ∈ (getDepAux g fuel (lookupDeps g d) (d :: visited)).2 :=
                (getDepAuxSndIff g fuel _ _ x).mpr (Or.inl hx1)
              exact getDepAuxFstNotVis g (fuel + 1) _ _ x hx2 hxr1

/-- The top-level fuel is always sufficient. -/
theorem freshCountTopLt (g : DepGraph) :
    freshCount g [] < (graphVals g).length + 1 := by
  unfold freshCount
  exact Nat.lt_succ_of_le (List.length_filter_le _ _)

/-- Characterisation of _get_dependent_keys: a key is collected exactly when
it is reachable from the start key through one or more dependency edges.
Since reachability mentions no traversal order, the collected set is
independent of iteration order. -/
theorem memGetDependentKeysIff (g : DepGraph) (key x : String) :
    x ∈ getDependentKeysList g key ↔ Reach g key x := by
  unfold getDependentKeysList
  have hp : ∀ d, d ∈ lookupDeps g key → d ∈ graphVals g :=
    fun d hd => memLookupDepsVals g key d hd
  have hf := freshCountTopLt g
  constructor
  · intro hx
    have hx2 : x ∈ (getDepAux g ((graphVals g).length + 1)
        (lookupDeps g key) []).2 :=
      (getDepAuxSndIff g _ _ _ x).mpr (Or.inl hx)
    rcases getDepAuxSound g _ _ _ x hx2 with h | ⟨d, hd, hc⟩
    · simp at h
    · rcases hc with rfl | h
      · exact Reach.single hd
      · exact Reach.head hd h
  · intro hr
    induction hr with
    | single h =>
        have hm := getDepAuxAbsorb g ((graphVals g).length + 1)
          (lookupDeps g key) [] hp hf _ h
        rcases (getDepAuxSndIff g _ _ _ _).mp hm with h1 | h1
        · exact h1
        · simp at h1
    | tail hr' hc ih =>
        rename_i b c
        have hb2 : b ∈ (getDepAux g ((graphVals g).length + 1)
            (lookupDeps g key) []).2 :=
          (getDepAuxSndIff g _ _ _ b).mpr (Or.inl ih)
        have hbnv : b ∉ ([] : List String) := by simp
        have hm := getDepAuxExpand g ((graphVals g).length + 1)
          (lookupDeps g key) [] hp hf b hb2 hbnv c hc
        rcases (getDepAuxSndIff g _ _ _ c).mp hm with h1 | h1
        · exact h1
        · simp at h1

/-- Characterisation of the full invalidation set: the key itself plus
everything reachable from it. -/
theorem memInvalidationKeysIff (g : DepGraph) (key x : String) :
    x ∈ invalidationKeys g key ↔ x = key ∨ Reach g key x := by
  unfold invalidationKeys
  by_cases hk : key ∈ getDependentKeysList g key
  · rw [if_pos hk, memGetDependentKeysIff]
    constructor
    · exact fun h => Or.inr h
    · rintro (rfl | h)
      · exact (memGetDependentKeysIff g x x).mp hk
      · exact h
  · rw [if_neg hk]
    simp only [List.mem_append, List.mem_singleton, memGetDependentKeysIff]
    tauto

/-- The invalidation set holds each key once. -/
theorem invalidationKeysNodup (g : DepGraph) (key : String) :
    (invalidationKeys g key).Nodup := by
  unfold invalidationKeys
  by_cases hk : key ∈ getDependentKeysList g key
  · rw [if_pos hk]
    exact getDepAuxNodupFst g _ _ _
  · rw [if_neg hk]
    refine List.Nodup.append (getDepAuxNodupFst g _ _ _)
      (List.nodup_singleton key) ?_
    intro x hx1 hx2
    rw [List.mem_singleton] at hx2
    subst hx2
    exact hk hx1

/-- A healthy delete loop reports success and removes exactly the listed
keys. -/
theorem deleteLoopNoFail (ks : List String) (st : KVStore) :
    (deleteLoop noFail ks st).1 = true ∧
      ∀ j p, ((j, p) ∈ (deleteLoop noFail ks st).2 ↔ ((j, p) ∈ st ∧ j ∉ ks)) := by
  induction ks generalizing st with
  | nil =>
      refine ⟨rfl, ?_⟩
      intro j p
      simp [deleteLoop]
  | cons k ks ih =>
      have hk : redisDeleteOne noFail st k =
          some (st.filter (fun kv => kv.1 != k)) := by
        simp [redisDeleteOne, noFail]
      constructor
      · show (deleteLoop noFail (k :: ks) st).1 = true
        simp only [deleteLoop, hk]
        exact (ih _).1
      · intro j p
        simp only [deleteLoop, hk]
        rw [(ih _).2 j p]
        simp only [List.mem_filter, List.mem_cons, bne_iff_ne, ne_eq,
          decide_eq_true_eq]
        tauto

/-- A delete loop in which some key raises reports failure: the loop runs the
keys before the first failing one, deleting each, and stops at the failure,
leaving the store as of that point and never attempting the rest. -/
theorem deleteLoopFirstFail (beh : RedisBehavior) :
    ∀ (pre : List String) (k : String) (post : List String) (st : KVStore),
      (∀ a, a ∈ pre → beh.deleteFails a = false) →
      beh.deleteFails k = true →
      deleteLoop beh (pre ++ k :: post) st =
        (false, pre.foldl (fun s a => s.filter (fun kv => kv.1 != a)) st) := by
  intro pre
  induction pre with
  | nil =>
      intro k post st _ hk
      simp only [List.nil_append, deleteLoop, redisDeleteOne, hk, if_true,
        List.foldl_nil]
  | cons a pre ih =>
      intro k post st hpre hk
      have ha : beh.deleteFails a = false := hpre a (List.mem_cons_self a pre)
      simp only [List.cons_append, deleteLoop, redisDeleteOne, ha,
        Bool.false_eq_true, if_false, List.foldl_cons]
      exact ih k post _ (fun b hb => hpre b (List.mem_cons_of_mem a hb)) hk

/-- A healthy pattern invalidation reports success and removes exactly the
keys the glob pattern matches. -/
theorem patternDeleteCoreNoFail (st : KVStore) (pattern : String) :
    (patternDeleteCore noFail st pattern).1 = true ∧
      ∀ j p, ((j, p) ∈ (patternDeleteCore noFail st pattern).2 ↔
        ((j, p) ∈ st ∧ globMatch pattern j = false)) := by
  have hkeys : redisKeys noFail st pattern =
      some ((st.map Prod.fst).filter (fun k => globMatch pattern k)) := by
    simp [redisKeys, noFail]
  by_cases hemp :
      ((st.map Prod.fst).filter (fun k => globMatch pattern k)).isEmpty
  · have hres : patternDeleteCore noFail st pattern = (true, st) := by
      rw [patternDeleteCore, hkeys]
      simp only [hemp, if_true]
    rw [hres]
    refine ⟨rfl, ?_⟩
    intro j p
    constructor
    · intro hj
      refine ⟨hj, ?_⟩
      by_contra hmat
      have hmat' : globMatch pattern j = true := by
        cases hg : globMatch pattern j
        · exact absurd hg hmat
        · rfl
      have hjk : j ∈ (st.map Prod.fst).filter (fun k => globMatch pattern k) := by
        rw [List.mem_filter]
        exact ⟨List.mem_map_of_mem Prod.fst hj, hmat'⟩
      rw [List.isEmpty_iff] at hemp
      rw [hemp] at hjk
      simp at hjk
    · exact fun h => h.1
  · have hdel : redisDeleteMany noFail st
        ((st.map Prod.fst).filter (fun k => globMatch pattern k)) =
        some (st.filter (fun kv =>
          !(((st.map Prod.fst).filter (fun k => globMatch pattern k)).contains kv.1))) := by
      simp [redisDeleteMany, noFail]
    have hres : patternDeleteCore noFail st pattern =
        (true, st.filter (fun kv =>
          !(((st.map Prod.fst).filter (fun k => globMatch pattern k)).contains kv.1))) := by
      rw [patternDeleteCore, hkeys]
      simp only [hemp, if_false, Bool.false_eq_true]
      rw [hdel]
    rw [hres]
    refine ⟨rfl, ?_⟩
    intro j p
    rw [List.mem_filter]
    constructor
    · rintro ⟨hj, hcond⟩
      refine ⟨hj, ?_⟩
      have hc2 : ((st.map Prod.fst).filter
          (fun k => globMatch pattern k)).contains j = false := by
        simpa using hcond
      cases hg : globMatch pattern j
      · rfl
      · exfalso
        have hjk : j ∈ (st.map Prod.fst).filter (fun k => globMatch pattern k) := by
          rw [List.mem_filter]
          exact ⟨List.mem_map_of_mem Prod.fst hj, hg⟩
        have hct : ((st.map Prod.fst).filter
            (fun k => globMatch pattern k)).contains j = true :=
          List.elem_iff.mpr hjk
        rw [hc2] at hct
        exact Bool.false_ne_true hct
    · rintro ⟨hj, hmat⟩
      refine ⟨hj, ?_⟩
      have hc2 : ((st.map Prod.fst).filter
          (fun k => globMatch pattern k)).contains j = false := by
        cases hc : ((st.map Prod.fst).filter
            (fun k => globMatch pattern k)).contains j
        · rfl
        · exfalso
          have hjk := List.elem_iff.mp hc
          rw [List.mem_filter] at hjk
          have hgt : globMatch pattern j = true := by simpa using hjk.2
          rw [hmat] at hgt
          exact Bool.false_ne_true hgt
      simp only [hc2, Bool.not_false]

/-- Set update never loses existing members. -/
theorem insertNewMemOld (ds : List String) :
    ∀ (s : List String) (x : String), x ∈ s → x ∈ insertNew s ds := by
  induction ds with
  | nil =>
      intro s x hx
      exact hx
  | cons d ds ih =>
      intro s x hx
      show x ∈ insertNew (if d ∈ s then s else s ++ [d]) ds
      by_cases hd : d ∈ s
      · rw [if_pos hd]
        exact ih s x hx
      · rw [if_neg hd]
        exact ih _ x (List.mem_append_left _ hx)

/-- Set update contains every inserted member. -/
theorem insertNewMemNew (ds : List String) :
    ∀ (s : List String) (x : String), x ∈ ds → x ∈ insertNew s ds := by
  induction ds with
  | nil =>
      intro s x hx
      simp at hx
  | cons d ds ih =>
      intro s x hx
      show x ∈ insertNew (if d ∈ s then s else s ++ [d]) ds
      rcases List.mem_cons.mp hx with rfl | hx'
      · by_cases hd : x ∈ s
        · rw [if_pos hd]
          exact insertNewMemOld ds s x hd
        · rw [if_neg hd]
          exact insertNewMemOld ds _ x
            (List.mem_append_right _ (List.mem_singleton.mpr rfl))
      · by_cases hd : d ∈ s
        · rw [if_pos hd]
          exact ih s x hx'
        · rw [if_neg hd]
          exact ih _ x hx'

/-- Updating with members that are all already present changes nothing
(Python set.update with a subset). -/
theorem insertNewSubset (ds : List String) :
    ∀ (s : List String), (∀ d, d ∈ ds → d ∈ s) → insertNew s ds = s := by
  induction ds with
  | nil =>
      intro s _
      rfl
  | cons d ds ih =>
      intro s hsub
      show insertNew (if d ∈ s then s else s ++ [d]) ds = s
      rw [if_pos (hsub d (List.mem_cons_self d ds))]
      exact ih s (fun a ha => hsub a (List.mem_cons_of_mem d ha))

/-- Lookup after replacing a present binding sees the new value. -/
theorem graphLookupUpdate (g : DepGraph) (key : String) (v0 v : List String)
    (h : graphLookup g key = some v0) :
    graphLookup (updateEntry g key v) key = some v := by
  induction g with
  | nil => simp [graphLookup] at h
  | cons kv g ih =>
      obtain ⟨k, w⟩ := kv
      by_cases hk : k = key
      · subst hk
        simp [updateEntry, graphLookup]
      · simp only [graphLookup, if_neg hk] at h
        simp only [updateEntry, if_neg hk, graphLookup, if_neg hk]
        exact ih h

/-- Replacing a binding with the value it already has is the identity. -/
theorem updateEntrySame (g : DepGraph) (key : String) (v : List String)
    (h : graphLookup g key = some v) : updateEntry g key v = g := by
  induction g with
  | nil => simp [graphLookup] at h
  | cons kv g ih =>
      obtain ⟨k, w⟩ := kv
      by_cases hk : k = key
      · subst hk
        have h' : w = v := by simpa [graphLookup] using h
        simp [updateEntry, h']
      · simp only [graphLookup, if_neg hk] at h
        simp only [updateEntry, if_neg hk, List.cons.injEq, true_and]
        exact ih h

/-- Replacing twice with the same value is the same as replacing once. -/
theorem updateEntryTwice (g : DepGraph) (key : String) (v : List String) :
    updateEntry (updateEntry g key v) key v = updateEntry g key v := by
  induction g with
  | nil => rfl
  | cons kv g ih =>
      obtain ⟨k, w⟩ := kv
      by_cases hk : k = key
      · subst hk
        simp [updateEntry]
      · simp only [updateEntry, if_neg hk, List.cons.injEq, true_and]
        exact ih

/-- Lookup in an extension of a graph that lacked the key finds the new
binding. -/
theorem graphLookupAppend (g : DepGraph) (key : String) (v : List String)
    (h : graphLookup g key = Option.none) :
    graphLookup (g ++ [(key, v)]) key = some v := by
  induction g with
  | nil => simp [graphLookup]
  | cons kv g ih =>
      obtain ⟨k, w⟩ := kv
      by_cases hk : k = key
      · simp [graphLookup, if_pos hk] at h
      · simp only [List.cons_append, graphLookup, if_neg hk] at h ⊢
        exact ih h

/-- Replacing the binding just appended to a previously lacking graph with
the same value is the identity. -/
theorem updateEntryAppend (g : DepGraph) (key : String) (v : List String)
    (h : graphLookup g key = Option.none) :
    updateEntry (g ++ [(key, v)]) key v = g ++ [(key, v)] := by
  induction g with
  | nil => simp [updateEntry]
  | cons kv g ih =>
      obtain ⟨k, w⟩ := kv
      by_cases hk : k = key
      · simp [graphLookup, if_pos hk] at h
      · simp only [graphLookup, if_neg hk] at h
        simp only [List.cons_append, updateEntry, if_neg hk, List.cons.injEq,
          true_and]
        exact ih h

/-- Fixture: the two-cycle of mutually dependent keys named in the spec. -/
def cycleGraph : DepGraph := [("A", ["B"]), ("B", ["A"])]

/-- Fixture: a store holding the two cycle keys and an unrelated key. -/
def cycleStore : KVStore :=
  [("A", .text (.int 1)), ("B", .text (.int 2)), ("C", .text (.int 3))]

/-- Fixture: a single dependency edge A to B. -/
def chainGraph : DepGraph := [("A", ["B"])]

/-- Fixture: a store holding both chain keys. -/
def chainStore : KVStore := [("A", .text (.int 1)), ("B", .text (.int 2))]

/-- Fixture: a backend on which only deleting B raises. -/
def failB : RedisBehavior :=
  { setexFails := fun _ => false
    getFails := fun _ => false
    deleteFails := fun k => k == "B"
    keysFails := false }

/-- Claim C1: for every dependency graph and key, invalidate_with_dependencies
on a healthy backend reports success and deletes from the backing store
exactly the key itself plus every key transitively reachable from it through
registered dependency edges, and nothing else; the right-hand side is stated
through the order-free reachability relation, so the traversal order cannot
affect the result set. -/
theorem C1_invalidation_deletes_exact_closure (g : DepGraph) (st : KVStore)
    (key : String) :
    (invalidateWithDependencies noFail ⟨g, st⟩ key).1 = true ∧
    ∀ j p, ((j, p) ∈ (invalidateWithDependencies noFail ⟨g, st⟩ key).2.store ↔
      ((j, p) ∈ st ∧ ¬(j = key ∨ Reach g key j))) := by
  have hd := deleteLoopNoFail (invalidationKeys g key) st
  constructor
  · show (deleteLoop noFail (invalidationKeys g key) st).1 = true
    exact hd.1
  · intro j p
    show (j, p) ∈ (deleteLoop noFail (invalidationKeys g key) st).2 ↔ _
    rw [hd.2 j p]
    rw [show (j ∉ invalidationKeys g key) = ¬(j ∈ invalidationKeys g key) from rfl,
      memInvalidationKeysIff]

/-- Claim C2: the invalidation set never repeats a key (each key is visited
at most once per call, for every graph, cyclic or not), and on the concrete
two-cycle A to B, B to A, invalidating A terminates with success and deletes
exactly the set of A and B, leaving the unrelated key C. -/
theorem C2_cycle_terminates_exact :
    (∀ (g : DepGraph) (key : String), (invalidationKeys g key).Nodup) ∧
    (invalidateWithDependencies noFail ⟨cycleGraph, cycleStore⟩ "A").1 = true ∧
    (invalidateWithDependencies noFail ⟨cycleGraph, cycleStore⟩ "A").2.store =
      [("C", .text (.int 3))] := by
  refine ⟨invalidationKeysNodup, rfl, rfl⟩

/-- Claim C3 counterexample: with the single edge A to B and a backend on
which deleting B raises while deleting A would succeed, the invalidation of
A returns false, yet A — a key of the closure whose delete does not fail — is
still present afterwards: the delete was never attempted for it, because the
try/except wraps the whole loop and the first failure aborts it. -/
theorem C3_counterexample :
    (invalidateWithDependencies failB ⟨chainGraph, chainStore⟩ "A").1 = false ∧
    "A" ∈ invalidationKeys chainGraph "A" ∧
    failB.deleteFails "A" = false ∧
    ("A", Payload.text (JVal.int 1)) ∈
      (invalidateWithDependencies failB ⟨chainGraph, chainStore⟩ "A").2.store := by
  refine ⟨rfl, by decide, rfl, ?_⟩
  show ("A", Payload.text (JVal.int 1)) ∈ chainStore
  exact List.mem_cons_self _ _

/-- Claim C3 amended: if the backend delete fails for some key during
invalidate_with_dependencies, the operation returns false; the keys before
the first failing key in the traversal order have been deleted, and the loop
aborts at the failure, so the failing key and every key after it are left
untouched (no further delete is attempted). -/
theorem C3_first_failure_aborts_loop (beh : RedisBehavior) (g : DepGraph)
    (st : KVStore) (key : String) (pre : List String) (k : String)
    (post : List String)
    (hsplit : invalidationKeys g key = pre ++ k :: post)
    (hpre : ∀ a, a ∈ pre → beh.deleteFails a = false)
    (hk : beh.deleteFails k = true) :
    invalidateWithDependencies beh ⟨g, st⟩ key =
      (false, ⟨g, pre.foldl (fun s a => s.filter (fun kv => kv.1 != a)) st⟩) := by
  unfold invalidateWithDependencies
  rw [hsplit, deleteLoopFirstFail beh pre k post st hpre hk]

/-- Witness for the amended C3 at the concrete chain fixture: the failing
key B is first in the traversal, so nothing is deleted and false is
returned. -/
theorem C3_first_failure_aborts_loop_witness :
    invalidateWithDependencies failB ⟨chainGraph, chainStore⟩ "A" =
      (false, ⟨chainGraph, ([] : List String).foldl
        (fun s a => s.filter (fun kv => kv.1 != a)) chainStore⟩) :=
  C3_first_failure_aborts_loop failB chainGraph chainStore "A" [] "B" ["A"]
    rfl (by simp) rfl

/-- A SETEX with a healthy backend and a positive TTL succeeds and binds the
key. -/
theorem setexNoFailPos (st : KVStore) (key : String) (ttl : Int) (p : Payload)
    (h : 0 < ttl) :
    redisSetex noFail st key ttl p =
      some ((key, p) :: st.filter (fun kv => kv.1 != key)) := by
  unfold redisSetex
  rw [if_neg]
  intro hc
  rcases hc with hc | hc
  · simp [noFail] at hc
  · omega

/-- A value exists that breaks the round trip for a text-encoded category:
json.dumps coerces the integer dict key 1 to the string "1", so the value
read back differs from the value written.  A TTL exists that breaks it too:
SETEX rejects a TTL of 0, the write reports false, and the following read
returns None. -/
def badDict : PyVal := .dict [(.int 1, .str "x")]

/-- Claim C4 counterexample: writing the dict with integer key 1 under the
user category and reading it straight back yields the dict with string key
"1", not the written value; and with TTL 0 the write fails and the read
returns None rather than the written value. -/
theorem C4_counterexample :
    getUserData noFail (setUserData noFail [] 5 badDict 3600).2 5 ≠ badDict ∧
    (setUserData noFail [] 5 (.dict []) 0).1 = false ∧
    getUserData noFail (setUserData noFail [] 5 (.dict []) 0).2 5 ≠ .dict [] := by
  refine ⟨?_, rfl, ?_⟩
  · show PyVal.dict [(.str "1", .str "x")] ≠ badDict
    intro h
    simp [badDict] at h
  · show PyVal.none ≠ PyVal.dict []
    intro h
    exact PyVal.noConfusion h

/-- Claim C4 amended: a set followed immediately by a get of the same
category and identifier returns the written value, for every positive TTL,
for every value in the binary-encoded category, and for every JSON-faithful
value (all dict keys strings) in the text-encoded categories. -/
theorem C4_set_get_roundtrip :
    (∀ (st : KVStore) (userId : Int) (data : PyVal) (ttl : Int), 0 < ttl →
        jfaithful data = true →
        getUserData noFail (setUserData noFail st userId data ttl).2 userId = data) ∧
    (∀ (st : KVStore) (userId : Int) (analysisType : String) (results : PyVal)
        (ttl : Int), 0 < ttl → jfaithful results = true →
        getCachedAnalysis noFail
          (cacheAnalysisResults noFail st userId analysisType results ttl).2
          userId analysisType = results) ∧
    (∀ (st : KVStore) (userId : Int) (stats : PyVal) (ttl : Int), 0 < ttl →
        jfaithful stats = true →
        getCachedStudyStatistics noFail
          (cacheStudyStatistics noFail st userId stats ttl).2 userId = stats) ∧
    (∀ (st : KVStore) (mapId : Int) (graphData : PyVal) (ttl : Int), 0 < ttl →
        getCachedKnowledgeMap noFail
          (cacheKnowledgeMap noFail st mapId graphData ttl).2 mapId = graphData) := by
  refine ⟨?_, ?_, ?_, ?_⟩
  · intro st userId data ttl httl hf
    unfold setUserData
    rw [setexNoFailPos st _ ttl _ httl]
    simp [getUserData, redisGet, noFail, storeLookup, jroundtrip data hf]
  · intro st userId analysisType results ttl httl hf
    unfold cacheAnalysisResults
    rw [setexNoFailPos st _ ttl _ httl]
    simp [getCachedAnalysis, redisGet, noFail, storeLookup, jroundtrip results hf]
  · intro st userId stats ttl httl hf
    unfold cacheStudyStatistics
    rw [setexNoFailPos st _ ttl _ httl]
    simp [getCachedStudyStatistics, redisGet, noFail, storeLookup,
      jroundtrip stats hf]
  · intro st mapId graphData ttl httl
    unfold cacheKnowledgeMap
    rw [setexNoFailPos st _ ttl _ httl]
    simp [getCachedKnowledgeMap, redisGet, noFail, storeLookup]

/-- Witness for the amended C4 at concrete inputs, one per category. -/
theorem C4_set_get_roundtrip_witness :
    getUserData noFail (setUserData noFail [] 7 (.str "v") 1).2 7 = .str "v" ∧
    getCachedAnalysis noFail
      (cacheAnalysisResults noFail [] 7 "trend" (.int 3) 1).2 7 "trend" = .int 3 ∧
    getCachedStudyStatistics noFail
      (cacheStudyStatistics noFail [] 7 (.dict [(.str "math", .int 90)]) 1).2 7 =
      .dict [(.str "math", .int 90)] ∧
    getCachedKnowledgeMap noFail
      (cacheKnowledgeMap noFail [] 2 badDict 1).2 2 = badDict :=
  ⟨C4_set_get_roundtrip.1 [] 7 (.str "v") 1 (by norm_num) rfl,
   C4_set_get_roundtrip.2.1 [] 7 "trend" (.int 3) 1 (by norm_num) rfl,
   C4_set_get_roundtrip.2.2.1 [] 7 (.dict [(.str "math", .int 90)]) 1
     (by norm_num) rfl,
   C4_set_get_roundtrip.2.2.2 [] 2 badDict 1 (by norm_num)⟩

/-- Fixture: a backend on which every call raises. -/
def allFail : RedisBehavior :=
  { setexFails := fun _ => true
    getFails := fun _ => true
    deleteFails := fun _ => true
    keysFails := true }

/-- Claim C5: backend failures and deserialisation failures never escape the
store boundary.  Every set-style operation returns false (with the store
untouched) when its SETEX raises; every get-style operation returns None
when its GET raises; and every get-style operation returns None when the
stored payload has the other encoding, so that deserialisation raises. -/
theorem C5_errors_never_propagate :
    (∀ (beh : RedisBehavior) (st : KVStore) (userId : Int) (data : PyVal)
        (ttl : Int), beh.setexFails (getKey "user" (toString userId)) = true →
        setUserData beh st userId data ttl = (false, st)) ∧
    (∀ (beh : RedisBehavior) (st : KVStore) (mapId : Int) (data : PyVal)
        (ttl : Int),
        beh.setexFails (getKey "knowledge_map" (toString mapId)) = true →
        cacheKnowledgeMap beh st mapId data ttl = (false, st)) ∧
    (∀ (beh : RedisBehavior) (st : KVStore) (userId : Int)
        (analysisType : String) (data : PyVal) (ttl : Int),
        beh.setexFails (getKey ("analysis:" ++ analysisType)
          (toString userId)) = true →
        cacheAnalysisResults beh st userId analysisType data ttl = (false, st)) ∧
    (∀ (beh : RedisBehavior) (st : KVStore) (userId : Int) (data : PyVal)
        (ttl : Int),
        beh.setexFails (getKey "study_stats" (toString userId)) = true →
        cacheStudyStatistics beh st userId data ttl = (false, st)) ∧
    (∀ (beh : RedisBehavior) (st : KVStore) (userId : Int),
        beh.getFails (getKey "user" (toString userId)) = true →
        getUserData beh st userId = .none) ∧
    (∀ (beh : RedisBehavior) (st : KVStore) (mapId : Int),
        beh.getFails (getKey "knowledge_map" (toString mapId)) = true →
        getCachedKnowledgeMap beh st mapId = .none) ∧
    (∀ (beh : RedisBehavior) (st : KVStore) (userId : Int)
        (analysisType : String),
        beh.getFails (getKey ("analysis:" ++ analysisType)
          (toString userId)) = true →
        getCachedAnalysis beh st userId analysisType = .none) ∧
    (∀ (beh : RedisBehavior) (st : KVStore) (userId : Int),
        beh.getFails (getKey "study_stats" (toString userId)) = true →
        getCachedStudyStatistics beh st userId = .none) ∧
    (∀ (beh : RedisBehavior) (st : KVStore) (userId : Int) (v : PyVal),
        beh.getFails (getKey "user" (toString userId)) = false →
        storeLookup st (getKey "user" (toString userId)) = some (.binary v) →
        getUserData beh st userId = .none) ∧
    (∀ (beh : RedisBehavior) (st : KVStore) (mapId : Int) (j : JVal),
        beh.getFails (getKey "knowledge_map" (toString mapId)) = false →
        storeLookup st (getKey "knowledge_map" (toString mapId)) =
          some (.text j) →
        getCachedKnowledgeMap beh st mapId = .none) ∧
    (∀ (beh : RedisBehavior) (st : KVStore) (userId : Int)
        (analysisType : String) (v : PyVal),
        beh.getFails (getKey ("analysis:" ++ analysisType)
          (toString userId)) = false →
        storeLookup st (getKey ("analysis:" ++ analysisType)
          (toString userId)) = some (.binary v) →
        getCachedAnalysis beh st userId analysisType = .none) ∧
    (∀ (beh : RedisBehavior) (st : KVStore) (userId : Int) (v : PyVal),
        beh.getFails (getKey "study_stats" (toString userId)) = false →
        storeLookup st (getKey "study_stats" (toString userId)) =
          some (.binary v) →
        getCachedStudyStatistics beh st userId = .none) := by
  refine ⟨?_, ?_, ?_, ?_, ?_, ?_, ?_, ?_, ?_, ?_, ?_, ?_⟩
  · intro beh st userId data ttl h
    simp [setUserData, redisSetex, h]
  · intro beh st mapId data ttl h
    simp [cacheKnowledgeMap, redisSetex, h]
  · intro beh st userId analysisType data ttl h
    simp [cacheAnalysisResults, redisSetex, h]
  · intro beh st userId data ttl h
    simp [cacheStudyStatistics, redisSetex, h]
  · intro beh st userId h
    simp [getUserData, redisGet, h]
  · intro beh st mapId h
    simp [getCachedKnowledgeMap, redisGet, h]
  · intro beh st userId analysisType h
    simp [getCachedAnalysis, redisGet, h]
  · intro beh st userId h
    simp [getCachedStudyStatistics, redisGet, h]
  · intro beh st userId v h1 h2
    simp [getUserData, redisGet, h1, h2]
  · intro beh st mapId j h1 h2
    simp [getCachedKnowledgeMap, redisGet, h1, h2]
  · intro beh st userId analysisType v h1 h2
    simp [getCachedAnalysis, redisGet, h1, h2]
  · intro beh st userId v h1 h2
    simp [getCachedStudyStatistics, redisGet, h1, h2]

/-- Witness for C5: each conjunct applied at a concrete input — the failing
backend for the raising cases, and a healthy backend with a cross-encoded
payload for the deserialisation cases. -/
theorem C5_errors_never_propagate_witness :
    setUserData allFail [] 3 .none 60 = (false, []) ∧
    cacheKnowledgeMap allFail [] 3 .none 60 = (false, []) ∧
    cacheAnalysisResults allFail [] 3 "trend" .none 60 = (false, []) ∧
    cacheStudyStatistics allFail [] 3 .none 60 = (false, []) ∧
    getUserData allFail [] 3 = .none ∧
    getCachedKnowledgeMap allFail [] 3 = .none ∧
    getCachedAnalysis allFail [] 3 "trend" = .none ∧
    getCachedStudyStatistics allFail [] 3 = .none ∧
    getUserData noFail [("mindmap_pro:user:3", .binary (.int 1))] 3 = .none ∧
    getCachedKnowledgeMap noFail
      [("mindmap_pro:knowledge_map:3", .text (.int 1))] 3 = .none ∧
    getCachedAnalysis noFail
      [("mindmap_pro:analysis:trend:3", .binary (.int 1))] 3 "trend" = .none ∧
    getCachedStudyStatistics noFail
      [("mindmap_pro:study_stats:3", .binary (.int 1))] 3 = .none :=
  ⟨C5_errors_never_propagate.1 allFail [] 3 .none 60 rfl,
   C5_errors_never_propagate.2.1 allFail [] 3 .none 60 rfl,
   C5_errors_never_propagate.2.2.1 allFail [] 3 "trend" .none 60 rfl,
   C5_errors_never_propagate.2.2.2.1 allFail [] 3 .none 60 rfl,
   C5_errors_never_propagate.2.2.2.2.1 allFail [] 3 rfl,
   C5_errors_never_propagate.2.2.2.2.2.1 allFail [] 3 rfl,
   C5_errors_never_propagate.2.2.2.2.2.2.1 allFail [] 3 "trend" rfl,
   C5_errors_never_propagate.2.2.2.2.2.2.2.1 allFail [] 3 rfl,
   C5_errors_never_propagate.2.2.2.2.2.2.2.2.1 noFail
     [("mindmap_pro:user:3", .binary (.int 1))] 3 (.int 1) rfl rfl,
   C5_errors_never_propagate.2.2.2.2.2.2.2.2.2.1 noFail
     [("mindmap_pro:knowledge_map:3", .text (.int 1))] 3 (.int 1) rfl rfl,
   C5_errors_never_propagate.2.2.2.2.2.2.2.2.2.2.1 noFail
     [("mindmap_pro:analysis:trend:3", .binary (.int 1))] 3 "trend" (.int 1)
     rfl rfl,
   C5_errors_never_propagate.2.2.2.2.2.2.2.2.2.2.2 noFail
     [("mindmap_pro:study_stats:3", .binary (.int 1))] 3 (.int 1) rfl rfl⟩

/-- Fixture: a store whose only key has identifier 421, a proper extension
of the identifier 42. -/
def storeC6 : KVStore := [("mindmap_pro:user:421", .text (.int 1))]

/-- Claim C6 counterexample: the claimed glob mindmap_pro:*:42* does match
the key with identifier 421, yet invalidate_user_cache(42) — whose actual
pattern mindmap_pro:*:42 has no trailing wildcard — reports success and
leaves the store unchanged, deleting nothing. -/
theorem C6_counterexample :
    globMatch "mindmap_pro:*:42*" "mindmap_pro:user:421" = true ∧
    invalidateUserCache noFail storeC6 42 = (true, storeC6) :=
  ⟨rfl, rfl⟩

/-- Claim C6 amended: invalidate_user_cache deletes exactly the keys that
the glob mindmap_pro:*:{user_id} — with no trailing wildcard, so the
identifier segment must end the key — matches, and returns a success
boolean. -/
theorem C6_domain_invalidation_exact (st : KVStore) (userId : Int) :
    (invalidateUserCache noFail st userId).1 = true ∧
    ∀ j p, ((j, p) ∈ (invalidateUserCache noFail st userId).2 ↔
      ((j, p) ∈ st ∧
        globMatch ("mindmap_pro:*:" ++ toString userId) j = false)) := by
  have hpat : getKey "*" (toString userId) =
      "mindmap_pro:*:" ++ toString userId := rfl
  have h := patternDeleteCoreNoFail st (getKey "*" (toString userId))
  rw [hpat] at h
  exact h

/-- Fixture: a store whose only key has identifier 142, which contains 42 as
a substring but does not start with it. -/
def storeC7 : KVStore := [("mindmap_pro:user:142", .text (.int 1))]

/-- Leading-segment test on character lists. -/
def listHasPre : List Char → List Char → Bool
  | [], _ => true
  | _ :: _, [] => false
  | p :: ps, c :: cs => p == c && listHasPre ps cs

/-- Contiguous-substring test on character lists. -/
def listHasSub (needle : List Char) : List Char → Bool
  | [] => needle.isEmpty
  | c :: cs => listHasPre needle (c :: cs) || listHasSub needle cs

/-- Contiguous-substring test on strings, the relation the claim uses:
strHasSub needle hay is true when needle occurs inside hay. -/
def strHasSub (needle hay : String) : Bool :=
  listHasSub needle.toList hay.toList

/-- Claim C7 counterexample: the identifier 142 contains 42 as a substring,
yet invalidate_user_data(42) — whose pattern mindmap_pro:*:42* requires a
colon-adjacent occurrence of 42, not mere containment — reports success and
leaves the key untouched. -/
theorem C7_counterexample :
    strHasSub "42" "142" = true ∧
    invalidateUserData noFail ⟨[], storeC7⟩ 42 = (true, ⟨[], storeC7⟩) :=
  ⟨rfl, rfl⟩

/-- Claim C7 amended: invalidate_user_data(user_id) deletes exactly the keys
matched by the glob mindmap_pro:*:{user_id}*, i.e. those in which the
identifier position starts with user_id; keys whose identifier merely
contains user_id elsewhere are left untouched, as is everything the glob
does not match. -/
theorem C7_user_invalidation_exact (g : DepGraph) (st : KVStore)
    (userId : Int) :
    (invalidateUserData noFail ⟨g, st⟩ userId).1 = true ∧
    ∀ j p, ((j, p) ∈ (invalidateUserData noFail ⟨g, st⟩ userId).2.store ↔
      ((j, p) ∈ st ∧
        globMatch ("mindmap_pro:*:" ++ toString userId ++ "*") j = false)) := by
  have h := patternDeleteCoreNoFail st
    ("mindmap_pro:*:" ++ toString userId ++ "*")
  constructor
  · show (patternDeleteCore noFail st
      ("mindmap_pro:*:" ++ toString userId ++ "*")).1 = true
    exact h.1
  · intro j p
    show (j, p) ∈ (patternDeleteCore noFail st
      ("mindmap_pro:*:" ++ toString userId ++ "*")).2 ↔ _
    exact h.2 j p

/-- Claim C8: invalidating a pattern that matches no key in the store is not
an error: provided the scan itself does not raise, it returns true and the
store (indeed the whole invalidator state) is unchanged. -/
theorem C8_empty_pattern_invalidation (beh : RedisBehavior) (s : InvState)
    (pattern : String) (hkeys : beh.keysFails = false)
    (hnone : (s.store.map Prod.fst).filter (fun k => globMatch pattern k) = []) :
    invalidatePattern beh s pattern = (true, s) := by
  unfold invalidatePattern patternDeleteCore redisKeys
  rw [hkeys]
  simp only [Bool.false_eq_true, if_false, hnone, List.isEmpty_nil, if_true]

/-- Witness for C8: a pattern matching nothing in a one-key store. -/
theorem C8_empty_pattern_invalidation_witness :
    invalidatePattern noFail ⟨[], [("mindmap_pro:user:1", .text .null)]⟩ "zzz" =
      (true, ⟨[], [("mindmap_pro:user:1", .text .null)]⟩) :=
  C8_empty_pattern_invalidation noFail
    ⟨[], [("mindmap_pro:user:1", .text .null)]⟩ "zzz" rfl rfl

/-- Claim C9: register_dependency is idempotent — registering the same
dependent list twice leaves the graph exactly as registering it once — and
registering an edge that already exists is a no-op on the graph. -/
theorem C9_register_dependency_idempotent :
    (∀ (g : DepGraph) (key : String) (ds : List String),
        registerDependency (registerDependency g key ds) key ds =
          registerDependency g key ds) ∧
    (∀ (g : DepGraph) (key d : String), d ∈ lookupDeps g key →
        registerDependency g key [d] = g) := by
  constructor
  · intro g key ds
    cases hg : graphLookup g key with
    | none =>
        have h1 : registerDependency g key ds =
            g ++ [(key, insertNew [] ds)] := by
          simp only [registerDependency, hg]
        rw [h1]
        have h2 : graphLookup (g ++ [(key, insertNew [] ds)]) key =
            some (insertNew [] ds) := graphLookupAppend g key _ hg
        simp only [registerDependency, h2]
        rw [insertNewSubset ds _ (fun d hd => insertNewMemNew ds [] d hd)]
        exact updateEntryAppend g key _ hg
    | some cur =>
        have h1 : registerDependency g key ds =
            updateEntry g key (insertNew cur ds) := by
          simp only [registerDependency, hg]
        rw [h1]
        have h2 : graphLookup (updateEntry g key (insertNew cur ds)) key =
            some (insertNew cur ds) := graphLookupUpdate g key cur _ hg
        simp only [registerDependency, h2]
        rw [insertNewSubset ds _ (fun d hd => insertNewMemNew ds cur d hd)]
        exact updateEntryTwice g key _
  · intro g key d hd
    cases hg : graphLookup g key with
    | none =>
        unfold lookupDeps at hd
        rw [hg] at hd
        simp at hd
    | some cur =>
        have hdc : d ∈ cur := by
          unfold lookupDeps at hd
          rw [hg] at hd
          exact hd
        simp only [registerDependency, hg]
        rw [insertNewSubset [d] cur ?_]
        · exact updateEntrySame g key cur hg
        · intro a ha
          rw [List.mem_singleton] at ha
          subst ha
          exact hdc

/-- Witness for C9: double registration on a small graph, and re-registering
the already-present edge A to B. -/
theorem C9_register_dependency_idempotent_witness :
    registerDependency (registerDependency [("A", ["B"])] "A" ["B", "C"])
        "A" ["B", "C"] =
      registerDependency [("A", ["B"])] "A" ["B", "C"] ∧
    registerDependency [("A", ["B"])] "A" ["B"] = [("A", ["B"])] :=
  ⟨C9_register_dependency_idempotent.1 [("A", ["B"])] "A" ["B", "C"],
   C9_register_dependency_idempotent.2 [("A", ["B"])] "A" "B" (by decide)⟩

/-- Claim C10: none of the five invalidation operations ever changes the
invalidator's in-memory dependency graph, whatever the backend does; only
register_dependency writes it. -/
theorem C10_invalidation_preserves_graph (beh : RedisBehavior) (s : InvState)
    (key pattern : String) (userId mapId : Int)
    (analysisType : Option String) :
    (invalidateWithDependencies beh s key).2.graph = s.graph ∧
    (invalidatePattern beh s pattern).2.graph = s.graph ∧
    (invalidateUserData beh s userId).2.graph = s.graph ∧
    (invalidateKnowledgeMap beh s mapId).2.graph = s.graph ∧
    (invalidateAnalysisCache beh s userId analysisType).2.graph = s.graph := by
  refine ⟨rfl, rfl, rfl, rfl, ?_⟩
  cases analysisType with
  | none => rfl
  | some t => rfl
